import Mathlib

/-!
# Verification of the rapidsms-polls classification core (poll/models.py)

Shallow embedding of the data model and operations of `poll/models.py`:
rule compilation (`Rule.get_regex`, `Rule.save`, `Rule.update_regex`),
numeric value parsing (the `re.split`-based branch of `Poll.process_response`),
classification of text/registration responses (`Poll.process_response`,
`Poll.reprocess_responses`), the default-category invariant (`Category.save`)
and manual recategorisation (`Response.update_categories`).

Python strings are modelled as `String`/`List Char`; nullable text fields as
`Option String` with Python truthiness (`None` and `""` are falsy); Python
floats as `Rat`; Django querysets as `List`; exceptions as `Except String`.
Regular-expression compilation (`re.compile`) is a parameter
`compile : String → Option (String → Bool)` of the classification functions:
`none` models an `re.error` raised at compile time, `some m` a compiled
pattern whose `search` on the (lowercased) text returns a truthy match.
-/

namespace RapidPolls

/-- Python truthiness of a nullable string field: `None` and `""` are falsy. -/
def strTruthy : Option String → Bool
  | none => false
  | some s => !s.data.isEmpty

/-- A regex word character (`\w` for the ASCII texts considered here):
letters, digits and underscore. -/
def wordChar (c : Char) : Bool := c.isAlphanum || c = '_'

/-- Case-insensitive character comparison, modelling `re.IGNORECASE`. -/
def ciEq (a b : Char) : Bool := a.toLower = b.toLower

/-- `str.strip()`: remove leading and trailing whitespace. -/
def pyStrip (l : List Char) : List Char :=
  ((l.dropWhile (fun c => c.isWhitespace)).reverse.dropWhile
    (fun c => c.isWhitespace)).reverse

/-- `text.split(',')`: split a character list on commas, keeping empty parts. -/
def splitOnComma : List Char → List (List Char)
  | [] => [[]]
  | c :: rest =>
    let parts := splitOnComma rest
    if c = ',' then [] :: parts
    else
      match parts with
      | [] => [[c]]
      | p :: ps => (c :: p) :: ps

/-- `re.escape` (Python 2): every character that is not ASCII alphanumeric
is prefixed with a backslash (the `\x00` special case cannot occur in these
fields). -/
def reEscape (l : List Char) : List Char :=
  l.foldr (fun c acc => if c.isAlphanum then c :: acc else '\\' :: c :: acc) []

/-- `STARTSWITH_PATTERN_TEMPLATE % s` (models.py line 40). -/
def STARTSWITH_PATTERN_TEMPLATE (s : String) : String :=
  "^\\s*(" ++ s ++ ")(\\s|[^a-zA-Z]|$)"

/-- `CONTAINS_PATTERN_TEMPLATE % s` (models.py line 42). -/
def CONTAINS_PATTERN_TEMPLATE (s : String) : String :=
  "^.*\\s*(" ++ s ++ ")(\\s|[^a-zA-Z]|$)"

/-- `Rule` (models.py lines 749-823): stored compiled pattern `regex`,
kind fields `rule_type` (`"sw"`/`"c"`/`"r"`) and `rule`
(`1` = contains_all_of, `2` = contains_one_of, nullable), raw text
`rule_string`. -/
structure Rule where
  regex : String
  rule_type : String
  rule_string : String
  rule : Option Nat
deriving DecidableEq

/-- The word list of `Rule.get_regex`: `self.rule_string.split(',')`, keeping
only words that are nonempty before stripping, each stripped and
`re.escape`d (models.py lines 785-804). -/
def ruleWords (rule_string : String) : List (List Char) :=
  (splitOnComma rule_string.data).filterMap
    (fun w => if w.length ≠ 0 then some (pyStrip w) else none)

/-- The `contains_all_of` pattern of `Rule.get_regex` (models.py lines 787-793):
one lookahead `(?=.*\b<word>\b)` per word, concatenated. -/
def allOfRegex (rule_string : String) : String :=
  String.mk ((ruleWords rule_string).foldl
    (fun acc w => acc ++ ('(' :: '?' :: '=' :: '.' :: '*' :: '\\' :: 'b' :: []
      ++ reEscape w ++ '\\' :: 'b' :: ')' :: [])) [])

/-- The `contains_one_of` pattern of `Rule.get_regex` (models.py lines 795-806):
an alternation of `(\b<word>\b)` groups. -/
def oneOfRegex (rule_string : String) : String :=
  String.mk ((ruleWords rule_string).foldl
    (fun acc w =>
      let grp := '(' :: '\\' :: 'b' :: [] ++ reEscape w ++ '\\' :: 'b' :: ')' :: []
      if acc.length ≠ 0 then acc ++ '|' :: grp else grp) [])

/-- `Rule.get_regex` (models.py lines 781-806): builds the word-list pattern
for `rule == 1` (contains_all_of) or `rule == 2` (contains_one_of);
for any other value Python falls off the end and returns `None`. -/
def Rule.get_regex (r : Rule) : Option String :=
  match r.rule with
  | some 1 => some (allOfRegex r.rule_string)
  | some 2 => some (oneOfRegex r.rule_string)
  | _ => none

/-- `Rule.save` (models.py lines 808-811): `if self.rule:` — only when the
integer `rule` field is set (its choices are 1 and 2) is the stored regex
recompiled from `get_regex()`; otherwise the row is saved with the stored
`regex` untouched. -/
def Rule.save (r : Rule) : Rule :=
  match r.rule with
  | some 1 => { r with regex := allOfRegex r.rule_string }
  | some 2 => { r with regex := oneOfRegex r.rule_string }
  | _ => r

/-- `Rule.update_regex` (models.py lines 817-823): recompute the stored regex
from `rule_type` and `rule_string`. Not called from `save`. -/
def Rule.update_regex (r : Rule) : Rule :=
  if r.rule_type = "sw" then { r with regex := STARTSWITH_PATTERN_TEMPLATE r.rule_string }
  else if r.rule_type = "c" then { r with regex := CONTAINS_PATTERN_TEMPLATE r.rule_string }
  else if r.rule_type = "r" then { r with regex := r.rule_string }
  else r

/-! ## Semantics of the word-list patterns

`allOfRegex` produces a concatenation of lookaheads `(?=.*\b<word>\b)`. Under
`re.search` (which tries every start position, in particular position 0) such
a pattern matches a text exactly when every word occurs somewhere in the text
delimited by word boundaries. A `\b` holds at a position exactly when the
characters on its two sides (start/end of text counting as non-word) differ
in word-character status. `re.IGNORECASE` is modelled by comparing characters
case-insensitively. -/

/-- Whether position `i` of `cs` holds a word character. Out-of-range
positions count as non-word. -/
def isWordAt (cs : List Char) (i : Nat) : Bool :=
  match cs[i]? with
  | some c => wordChar c
  | none => false

/-- The `\b` assertion at position `p` of `cs` (positions run from 0 to
`cs.length`). -/
def boundaryAt (cs : List Char) (p : Nat) : Bool :=
  (decide (0 < p) && isWordAt cs (p - 1)) != isWordAt cs p

/-- The escaped literal `w` matches at position `i` of `cs`,
case-insensitively. -/
def literalMatchAt (cs w : List Char) (i : Nat) : Bool :=
  w.length + i ≤ cs.length &&
    (List.range w.length).all (fun j =>
      match cs[i + j]?, w[j]? with
      | some a, some b => ciEq a b
      | _, _ => false)

/-- `re.search(r"\b<w>\b", cs)` succeeds: some position carries a boundary,
the literal word, and a boundary after it. -/
def containsWholeWord (w cs : List Char) : Bool :=
  (List.range (cs.length + 1)).any (fun i =>
    boundaryAt cs i && literalMatchAt cs w i && boundaryAt cs (i + w.length))

/-- `re.search` of the pattern `allOfRegex rule_string` on `text`: every
word of the rule occurs whole-word-delimited in the text (the lookaheads all
succeed at start position 0, and conversely a search success at any position
requires every word to occur at or after it). -/
def matchesAllOfWords (rule_string : String) (text : String) : Bool :=
  (ruleWords rule_string).all (fun w => containsWholeWord w text.data)

/-! ## Categories, responses and assignments -/

/-- `Category` (models.py lines 689-721): `pk` is the database primary key,
`default`/`error_category` the fallback and error flags, `response` the
per-category reply, `rules` the category's rules in queryset order. -/
structure Category where
  pk : Nat
  name : String
  priority : Option Nat
  default : Bool
  response : Option String
  error_category : Bool
  rules : List Rule
deriving DecidableEq

/-- `Category.save` (models.py lines 718-721): if this category is flagged
default and another category of the same poll is also flagged default, clear
the flag on all the others; then write this row (update the row with the same
`pk`, or insert it). The poll's category list is passed explicitly. -/
def Category.save (c : Category) (cats : List Category) : List Category :=
  let cleared :=
    if c.default && !((cats.filter (fun d => d.pk ≠ c.pk && d.default)).isEmpty) then
      cats.map (fun d => if d.pk ≠ c.pk && d.default then { d with default := false } else d)
    else cats
  if cleared.any (fun d => d.pk = c.pk) then
    cleared.map (fun d => if d.pk = c.pk then c else d)
  else cleared ++ [c]

/-- `ResponseCategory` (models.py lines 81-85): one (response, category)
assignment with an override flag and the assigning user's id. -/
structure ResponseCategory where
  category : Category
  is_override : Bool
  user : Option Nat
deriving DecidableEq

/-- `Response` (models.py lines 724-743): `text` is the stored
`eav.poll_text_value`, `number_value` the stored `eav.poll_number_value`,
`categories` the ordered assignments. -/
structure Response where
  text : Option String
  number_value : Option Rat
  has_errors : Bool
  categories : List ResponseCategory
deriving DecidableEq

/-- First loop of `Response.update_categories` (models.py lines 738-740):
for each chosen category not already assigned, create an override assignment
carrying the acting user. Each created assignment is visible to the
membership test of later iterations. -/
def updateCategoriesAdd (user : Nat) : List Category → List ResponseCategory → List ResponseCategory
  | [], rcs => rcs
  | c :: cs, rcs =>
    if (rcs.filter (fun rc => rc.category.pk = c.pk)).isEmpty then
      updateCategoriesAdd user cs (rcs ++ [⟨c, true, some user⟩])
    else
      updateCategoriesAdd user cs rcs

/-- `Response.update_categories` (models.py lines 737-743): add missing
chosen categories as override assignments, then delete every assignment whose
category is not among the chosen ones. -/
def Response.update_categories (resp : Response) (categories : List Category) (user : Nat) :
    Response :=
  let rcs := updateCategoriesAdd user categories resp.categories
  { resp with categories := rcs.filter (fun rc => categories.any (fun c => c.pk = rc.category.pk)) }

/-! ## Numeric parsing

`Poll.process_response` (models.py lines 422-434) splits the message text
with `re.split` on `(-?\d+(\.\d+)?)` and accepts exactly a 4-part split:
leading text, the matched number (group 1), the optional fraction (group 2,
`None` when absent) and trailing text. -/

/-- Leftmost match of `-?\d+(\.\d+)?` starting exactly at the head of `l`:
returns the whole matched token, the optional fraction group and the rest of
the input. The regex requires at least one digit; a fraction needs a dot
followed by at least one digit; both digit runs are greedy. -/
def numTokenAt : List Char → Option (List Char × Option (List Char) × List Char)
  | '-' :: c :: cs =>
    if c.isDigit then
      let ds := (c :: cs).takeWhile (fun x => x.isDigit)
      let rest := (c :: cs).dropWhile (fun x => x.isDigit)
      match rest with
      | '.' :: r2 =>
        let fds := r2.takeWhile (fun x => x.isDigit)
        if fds.isEmpty then some ('-' :: ds, none, rest)
        else some ('-' :: ds ++ '.' :: fds, some ('.' :: fds),
                   r2.dropWhile (fun x => x.isDigit))
      | _ => some ('-' :: ds, none, rest)
    else none
  | c :: cs =>
    if c.isDigit then
      let ds := (c :: cs).takeWhile (fun x => x.isDigit)
      let rest := (c :: cs).dropWhile (fun x => x.isDigit)
      match rest with
      | '.' :: r2 =>
        let fds := r2.takeWhile (fun x => x.isDigit)
        if fds.isEmpty then some (ds, none, rest)
        else some (ds ++ '.' :: fds, some ('.' :: fds), r2.dropWhile (fun x => x.isDigit))
      | _ => some (ds, none, rest)
    else none
  | [] => none

/-- `re.split(r"(-?\d+(\.\d+)?)", text)`, fuelled recursion (the fuel is an
upper bound on the remaining input length, so it is never exhausted when
called through `splitNumeric`): scan left to right; at each match emit the
pending unmatched prefix and the two capture groups, then continue after the
match. -/
def pySplitGo : Nat → List Char → List Char → List (Option (List Char))
  | 0, _, _ => []
  | fuel + 1, cs, acc =>
    match numTokenAt cs with
    | some (tok, frac, rest) =>
      some acc.reverse :: some tok :: frac :: pySplitGo fuel rest []
    | none =>
      match cs with
      | [] => [some acc.reverse]
      | c :: rest => pySplitGo fuel rest (c :: acc)

/-- The list returned by `re.split(r"(-?\d+(\.\d+)?)", text)`: `none` entries
are the `None` values Python inserts for a non-participating group. -/
def splitNumeric (text : String) : List (Option (List Char)) :=
  pySplitGo (text.data.length + 1) text.data []

/-- Decimal value of a digit run. -/
def digitsToNat (l : List Char) : Nat :=
  l.foldl (fun n c => 10 * n + (c.toNat - '0'.toNat)) 0

/-- `float()` of a token matched by `-?\d+(\.\d+)?`, as a rational. -/
def pyFloat (t : List Char) : Rat :=
  let sign : Bool := t.head? = some '-'
  let t' := if sign then t.drop 1 else t
  let intDs := t'.takeWhile (fun c => c.isDigit)
  let rest := t'.dropWhile (fun c => c.isDigit)
  let mag : Rat :=
    match rest with
    | '.' :: fds => (digitsToNat intDs : Rat) + (digitsToNat fds : Rat) / ((10 : Rat) ^ fds.length)
    | _ => (digitsToNat intDs : Rat)
  if sign then -mag else mag

/-! ## Classification -/

/-- `Poll` (models.py lines 88-168): the fields classification needs. `type`
is `"t"`/`"n"`/`"l"`/`"r"` (or a custom slug); `categories` is
`self.categories.all()` in queryset order. -/
structure Poll where
  type : String
  default_response : Option String
  categories : List Category
deriving DecidableEq

/-- `re.compile(pattern, re.IGNORECASE | re.UNICODE)` followed by
`compiled.search`: `none` models an `re.error` raised at compile time,
`some m` a compiled pattern with `m text = true` when `search` finds a
match. Classification is parametric in this engine. -/
def Compile := String → Option (String → Bool)

/-- `self.categories.get(default=True)` (Django `.get`): the unique category
flagged default, raising `DoesNotExist` / `MultipleObjectsReturned`
otherwise. -/
def getDefaultCat (cats : List Category) : Except String Category :=
  match cats.filter (fun c => c.default) with
  | [c] => Except.ok c
  | [] => Except.error "DoesNotExist"
  | _ => Except.error "MultipleObjectsReturned"

/-- State threaded through `process_response`: the response row being built
and the candidate `outgoing_message`. -/
structure ProcSt where
  resp : Response
  outgoing : Option String
deriving DecidableEq

/-- Inner rule loop of `Poll.process_response` for a text/registration poll
(models.py lines 440-448): compile each rule's stored regex (an `re.error`
propagates), search it on the lowercased message text and, on a match,
create an assignment, raise `has_errors` for an error category and replace
the outgoing message by the category reply when that reply is truthy.
There is no `break`: later rules of the same category are still evaluated. -/
def ruleLoopP (compile : Compile) (text : String) (category : Category) :
    List Rule → ProcSt → Except String ProcSt
  | [], st => Except.ok st
  | rule :: rs, st =>
    match compile rule.regex with
    | none => Except.error "re.error"
    | some m =>
      if m (String.mk (text.data.map Char.toLower)) then
        let resp := st.resp
        let resp := { resp with categories := resp.categories ++ [⟨category, false, none⟩] }
        let resp := if category.error_category then { resp with has_errors := true } else resp
        let out := if strTruthy category.response then category.response else st.outgoing
        ruleLoopP compile text category rs ⟨resp, out⟩
      else ruleLoopP compile text category rs st

/-- Outer category loop of `Poll.process_response` (models.py line 439):
`for category in self.categories.all()`. (The guard `if self.categories:`
on line 438 tests a Django manager object, which is always truthy.) -/
def catLoopP (compile : Compile) (text : String) :
    List Category → ProcSt → Except String ProcSt
  | [], st => Except.ok st
  | c :: cs, st =>
    match ruleLoopP compile text c c.rules st with
    | Except.error e => Except.error e
    | Except.ok st' => catLoopP compile text cs st'

/-- Ascending comparison on nullable priorities with nulls last.
Modelled from the spec: `order_by('category__priority')` delegates the
placement of SQL `NULL` to the database, which is not part of this
repository; §4.4/§9 of the spec fix ascending order with nulls last. -/
def priLE (a b : Option Nat) : Bool :=
  match a, b with
  | some m, some n => m ≤ n
  | some _, none => true
  | none, some _ => false
  | none, none => true

/-- Stable insertion into a priority-sorted assignment list. -/
def insertRC (x : ResponseCategory) : List ResponseCategory → List ResponseCategory
  | [] => [x]
  | y :: ys =>
    if priLE x.category.priority y.category.priority then x :: y :: ys
    else y :: insertRC x ys

/-- `resp.categories.order_by('category__priority')` (models.py line 480):
stable sort by ascending priority, nulls last (see `priLE`). -/
def sortByPriority (l : List ResponseCategory) : List ResponseCategory :=
  l.foldr insertRC []

/-- `if not outgoing_message: return resp, None` (models.py line 487):
a falsy outgoing message (null or empty) becomes `None`. -/
def finalReply (o : Option String) : Option String :=
  if strTruthy o then o else none

/-- Default-category fallback of `Poll.process_response` (models.py lines
471-477): a response with no assignment gets the default category; an error
default also sets `has_errors` and replaces the outgoing message with the
default category's reply (even when that reply is null). -/
def processDefaultStep (poll : Poll) (st : ProcSt) : Except String ProcSt :=
  if st.resp.categories.isEmpty && !((poll.categories.filter (fun c => c.default)).isEmpty) then
    match getDefaultCat poll.categories with
    | Except.error e => Except.error e
    | Except.ok d =>
      if d.error_category then
        Except.ok (⟨{ st.resp with
          categories := st.resp.categories ++ [⟨d, false, none⟩]
          has_errors := true }, d.response⟩ : ProcSt)
      else
        Except.ok (⟨{ st.resp with
          categories := st.resp.categories ++ [⟨d, false, none⟩] }, st.outgoing⟩ : ProcSt)
  else Except.ok st

/-- Reply scan of `Poll.process_response` (models.py lines 479-488): unless
the response has errors and a truthy outgoing message already exists, the
first assigned category in ascending priority order with a truthy reply
provides the outgoing message; then the final truthiness check of lines
487-493 turns a falsy outgoing message into `None`. -/
def replyScan (st : ProcSt) : Response × Option String :=
  let st3 :=
    if !st.resp.has_errors || !(strTruthy st.outgoing) then
      match (sortByPriority st.resp.categories).find? (fun rc => strTruthy rc.category.response) with
      | some rc => (⟨st.resp, rc.category.response⟩ : ProcSt)
      | none => st
    else st
  (st3.resp, finalReply st3.outgoing)

/-- Tail of `Poll.process_response` common to all answer types (models.py
lines 471-493): default-category fallback, then the reply scan. -/
def processFallbackReply (poll : Poll) (st : ProcSt) :
    Except String (Response × Option String) :=
  match processDefaultStep poll st with
  | Except.error e => Except.error e
  | Except.ok st2 => Except.ok (replyScan st2)

/-- `Poll.process_response` (models.py lines 401-493) for the built-in answer
types, returning the stored response row and the outgoing reply.

* A fresh `Response` is created; `outgoing_message` starts as the poll's
  `default_response`.
* Numeric polls (lines 422-434): split the text on `(-?\d+(\.\d+)?)`; a
  4-part split stores `float(msg_parts[1])`, anything else sets
  `has_errors`. (A `None` in group-1 position of a 4-part split would be a
  `TypeError` in `float()`; the split never produces it.)
* Text/registration polls (lines 436-448): run the category/rule loops.
* Location and custom registered types (lines 413-421 and 450-469) call an
  externally registered parser function (spec §6 external collaborators) and
  are omitted here; no claim below concerns them, and every poll in the
  theorems has type `"t"`, `"r"` or `"n"`.
* Default-category fallback (lines 471-477): a response with no assignment
  gets the default category; an error default also sets `has_errors` and
  replaces the outgoing message with the default category's reply (even when
  that reply is null).
* Reply scan (lines 479-488): unless the response has errors and a truthy
  outgoing message already exists, the lowest-priority-number assigned
  category with a truthy reply provides the outgoing message.
* Translation of the chosen reply (lines 490-491) is an external lookup
  keyed on the recipient's language and is omitted (spec §4.4 Locale). -/
def Poll.process_response (compile : Compile) (poll : Poll) (text : String) :
    Except String (Response × Option String) := do
  let resp : Response := { text := none, number_value := none, has_errors := false, categories := [] }
  let st0 : ProcSt := ⟨resp, poll.default_response⟩
  let st ←
    if poll.type = "n" then
      match splitNumeric text with
      | [_, some t, _, _] =>
        Except.ok (⟨{ resp with number_value := some (pyFloat t) }, st0.outgoing⟩ : ProcSt)
      | [_, none, _, _] => Except.error "TypeError"
      | _ => Except.ok (⟨{ resp with has_errors := true }, st0.outgoing⟩ : ProcSt)
    else if poll.type = "t" || poll.type = "r" then
      catLoopP compile text poll.categories ⟨{ resp with text := some text }, st0.outgoing⟩
    else
      Except.ok st0
  processFallbackReply poll st

/-- Inner rule loop of `Poll.reprocess_responses` (models.py lines 385-393):
compile each rule (an `re.error` propagates); when the stored text value is
truthy, the rule matches and the category is not yet assigned, record the
assignment (raising `has_errors` for an error category) and `break`. -/
def ruleLoopR (compile : Compile) (category : Category) :
    List Rule → Response → Except String Response
  | [], resp => Except.ok resp
  | rule :: rs, resp =>
    match compile rule.regex with
    | none => Except.error "re.error"
    | some m =>
      if strTruthy resp.text then
        if m (String.mk ((resp.text.getD "").data.map Char.toLower)) &&
            (resp.categories.filter (fun rc => rc.category.pk = category.pk)).isEmpty then
          let resp := if category.error_category then { resp with has_errors := true } else resp
          Except.ok { resp with categories := resp.categories ++ [⟨category, false, none⟩] }
        else ruleLoopR compile category rs resp
      else ruleLoopR compile category rs resp

/-- Outer category loop of `Poll.reprocess_responses` (models.py line 384). -/
def catLoopR (compile : Compile) : List Category → Response → Except String Response
  | [], resp => Except.ok resp
  | c :: cs, resp =>
    match ruleLoopR compile c c.rules resp with
    | Except.error e => Except.error e
    | Except.ok resp' => catLoopR compile cs resp'

/-- Default-category fallback of `Poll.reprocess_responses` (models.py
lines 394-398): when nothing is assigned and a default category exists,
raise `has_errors` if the default is an error category and assign it. -/
def reprocessDefaultStep (poll : Poll) (resp : Response) : Except String Response :=
  if resp.categories.isEmpty && !((poll.categories.filter (fun c => c.default)).isEmpty) then
    match getDefaultCat poll.categories with
    | Except.error e => Except.error e
    | Except.ok d =>
      let resp := if d.error_category then { resp with has_errors := true } else resp
      Except.ok { resp with categories := resp.categories ++ [⟨d, false, none⟩] }
  else Except.ok resp

/-- Body of `Poll.reprocess_responses` for one response (models.py lines
378-399): the initial bulk delete removes every non-override assignment of
the poll, so this response keeps exactly its override assignments;
`has_errors` is reset, the category/rule loops rerun, and the default
category is assigned when nothing matched. -/
def reprocessOne (compile : Compile) (poll : Poll) (resp0 : Response) :
    Except String Response :=
  match catLoopR compile poll.categories
      { resp0 with
        categories := resp0.categories.filter (fun rc => rc.is_override)
        has_errors := false } with
  | Except.error e => Except.error e
  | Except.ok resp => reprocessDefaultStep poll resp

/-- `Poll.reprocess_responses` (models.py lines 378-399): delete all
non-override assignments of the poll, then rerun classification over all of
the poll's responses. -/
def Poll.reprocess_responses (compile : Compile) (poll : Poll) (resps : List Response) :
    Except String (List Response) :=
  resps.mapM (reprocessOne compile poll)

/-- `Except.isOk` for the result of a classification call. -/
def exceptIsOk {α : Type} : Except String α → Bool
  | Except.ok _ => true
  | Except.error _ => false

/-! ## Concrete regex engines, polls and responses used in the closed
theorems and witnesses below -/

/-- A regex engine on which every stored pattern compiles and every search
matches. -/
def cAll : Compile := fun _ => some (fun _ => true)

/-- A regex engine on which every stored pattern compiles and no search
matches. -/
def cNever : Compile := fun _ => some (fun _ => false)

/-- A regex engine on which the pattern `"("` raises `re.error` at compile
time (as Python's `re.compile` does) and everything else compiles and
matches. -/
def cFail : Compile := fun p => if p = "(" then none else some (fun _ => true)

/-- A stored regex-kind rule with pattern `"x"`. -/
def rX : Rule := ⟨"x", "r", "x", none⟩

/-- A stored regex-kind rule with pattern `"y"`. -/
def rY : Rule := ⟨"y", "r", "y", none⟩

/-- A stored regex-kind rule whose pattern `"("` is malformed. -/
def rBad : Rule := ⟨"(", "r", "(", none⟩

/-- A category with two rules (both match any text under `cAll`). -/
def catDup : Category := ⟨5, "dup", none, false, none, false, [rX, rY]⟩

/-- A text poll whose single category has two matching rules. -/
def pollDup : Poll := ⟨"t", none, [catDup]⟩

/-- A category whose only rule has the malformed pattern `"("`. -/
def catBad : Category := ⟨1, "bad", none, false, none, false, [rBad]⟩

/-- A well-formed category after the malformed one. -/
def catGood : Category := ⟨2, "good", none, false, some "gr", false, [rX]⟩

/-- A text poll with a malformed rule in its first category and a matching
rule in its second. -/
def pollBad : Poll := ⟨"t", some "dr", [catBad, catGood]⟩

/-- A default category that is also an error category, with no reply and no
rules. -/
def catDefErr : Category := ⟨3, "unknown", none, true, none, true, []⟩

/-- A text poll with a truthy default reply whose only category is the
default/error one. -/
def pollDefErr : Poll := ⟨"t", some "dr", [catDefErr]⟩

/-- The response produced by `pollDefErr` on text `"zzz"` (no rule matches). -/
def respDefErr : Response := ⟨some "zzz", none, true, [⟨catDefErr, false, none⟩]⟩

/-- Category A: priority 1, reply `"ra"`, one rule. -/
def catA : Category := ⟨1, "A", some 1, false, some "ra", false, [rX]⟩

/-- Category B: priority 2, reply `"rb"`, one rule. -/
def catB : Category := ⟨2, "B", some 2, false, some "rb", false, [rY]⟩

/-- A text poll with categories A and B (both match any text under `cAll`). -/
def pollAB : Poll := ⟨"t", none, [catA, catB]⟩

/-- The response produced by `pollAB` under `cAll`: both categories
assigned, no errors. -/
def respAB : Response :=
  ⟨some "hello", none, false, [⟨catA, false, none⟩, ⟨catB, false, none⟩]⟩

/-- A numeric poll with no categories. -/
def pollNum : Poll := ⟨"n", none, []⟩

/-- The response produced by `pollNum` on `"19 years"`. -/
def respN19 : Response := ⟨none, some (pyFloat ('1' :: '9' :: [])), false, []⟩

/-- A category (pk 7) for override-preservation scenarios. -/
def catX : Category := ⟨7, "X", none, false, none, false, []⟩

/-- A category (pk 8) for override-preservation scenarios. -/
def catY : Category := ⟨8, "Y", none, false, none, false, [rY]⟩

/-- A category (pk 9) whose rule matches under `cAll`. -/
def catZ : Category := ⟨9, "Z", none, false, none, false, [rX]⟩

/-- A text poll with categories Y and Z for reprocessing scenarios. -/
def pollW : Poll := ⟨"t", none, [catY, catZ]⟩

/-- A response carrying an override assignment to X and a non-override
assignment to Y. -/
def respW : Response :=
  ⟨some "hello", none, false, [⟨catX, true, some 4⟩, ⟨catY, false, none⟩]⟩

/-- The result of reprocessing `respW` against `pollW` under `cAll`: the
override to X is kept, the non-override to Y is deleted and recomputed. -/
def respW' : Response :=
  ⟨some "hello", none, false,
    [⟨catX, true, some 4⟩, ⟨catY, false, none⟩, ⟨catZ, false, none⟩]⟩

/-- A stale StartsWith rule: `rule_string` was mutated to `"no"` but the
stored regex still holds the pattern compiled from `"yes"`. -/
def staleRule : Rule := ⟨STARTSWITH_PATTERN_TEMPLATE "yes", "sw", "no", none⟩

/-- An AllOfWords rule with raw string `"a, b"`. -/
def ruleAllAB : Rule := ⟨"", "", "a, b", some 1⟩

/-- A poll's categories where pk 1 is currently the default. -/
def catsC9 : List Category :=
  [⟨1, "p", none, true, none, false, []⟩, ⟨2, "q", none, false, none, false, []⟩]

/-- Category pk 2 being saved with the default flag set. -/
def catC9 : Category := ⟨2, "q", none, true, none, false, []⟩

/-! ## Helper lemmas -/

lemma mem_insertRC (x y : ResponseCategory) (l : List ResponseCategory) :
    y ∈ insertRC x l ↔ y = x ∨ y ∈ l := by
  induction l with
  | nil => simp [insertRC]
  | cons z zs ih =>
    by_cases h : priLE x.category.priority z.category.priority = true
    · simp [insertRC, h]
    · simp only [insertRC, if_neg h, List.mem_cons, ih]
      tauto

lemma mem_sortByPriority (y : ResponseCategory) (l : List ResponseCategory) :
    y ∈ sortByPriority l ↔ y ∈ l := by
  induction l with
  | nil => simp [sortByPriority]
  | cons z zs ih =>
    simp only [sortByPriority, List.foldr_cons] at ih ⊢
    rw [mem_insertRC, ih, List.mem_cons]

lemma filter_pk_isEmpty {l : List ResponseCategory} {k : Nat}
    (h : (l.filter (fun rc => rc.category.pk = k)).isEmpty = true) :
    k ∉ l.map (fun rc => rc.category.pk) := by
  rw [List.isEmpty_iff, List.filter_eq_nil_iff] at h
  intro hk
  rcases List.mem_map.mp hk with ⟨rc, hrc, hpk⟩
  exact h rc hrc (by simp [hpk])

lemma map_if_noop {α : Type} (p : α → Bool) (f : α → α) (l : List α)
    (h : ∀ x ∈ l, p x = false) :
    l.map (fun x => if p x then f x else x) = l := by
  induction l with
  | nil => rfl
  | cons a tl ih =>
    simp only [List.map_cons, h a (List.mem_cons_self a tl),
      ih (fun x hx => h x (List.mem_cons_of_mem a hx))]
    simp

lemma filter_pk_singleton {α : Type} (f : α → Nat) :
    ∀ (l : List α), (l.map f).Nodup → ∀ x ∈ l, l.filter (fun d => f d = f x) = [x] := by
  intro l
  induction l with
  | nil => intro _ x hx; simp at hx
  | cons b tl ih =>
    intro hnd x hx
    rw [List.map_cons, List.nodup_cons] at hnd
    rcases List.mem_cons.mp hx with hbx | hxtl
    · subst hbx
      have htl : tl.filter (fun d => f d = f x) = [] := by
        rw [List.filter_eq_nil_iff]
        intro a ha
        simp only [decide_eq_true_eq]
        intro heq
        exact hnd.1 (heq ▸ List.mem_map_of_mem f ha)
      simp [List.filter_cons, htl]
    · have hbf : (f b = f x) = False := by
        simp only [eq_iff_iff, iff_false]
        intro heq
        exact hnd.1 (heq ▸ List.mem_map_of_mem f hxtl)
      simp [List.filter_cons, hbf, ih hnd.2 x hxtl]

lemma response_set_err (b : Bool) (r : Response) :
    (if b then { r with has_errors := true } else r) =
      { r with has_errors := r.has_errors || b } := by
  cases b <;> simp

/-- What an `ok` run of `ruleLoopP` did: it appended some (possibly zero)
copies of the plain assignment to `category`, or-ed `has_errors` with the
category's error flag for each copy, left the stored values alone, and
replaced the outgoing message by the category's truthy reply if it matched
at least once. -/
lemma ruleLoopP_ok (compile : Compile) (text : String) (cat : Category)
    (rules : List Rule) : ∀ (st st' : ProcSt),
    ruleLoopP compile text cat rules st = Except.ok st' →
    ∃ added : List ResponseCategory,
      st'.resp.categories = st.resp.categories ++ added ∧
      (∀ rc ∈ added, rc = (⟨cat, false, none⟩ : ResponseCategory)) ∧
      st'.resp.has_errors
        = (st.resp.has_errors || added.any (fun rc => rc.category.error_category)) ∧
      st'.resp.text = st.resp.text ∧
      st'.resp.number_value = st.resp.number_value ∧
      (st'.outgoing = st.outgoing ∨
        (added ≠ [] ∧ strTruthy cat.response = true ∧ st'.outgoing = cat.response)) := by
  induction rules with
  | nil =>
    intro st st' h
    simp only [ruleLoopP] at h
    cases h
    exact ⟨[], by simp⟩
  | cons rule rs ih =>
    intro st st' h
    simp only [ruleLoopP] at h
    cases hc : compile rule.regex with
    | none => simp only [hc] at h; exact Except.noConfusion h
    | some m =>
      simp only [hc] at h
      cases hm : m (String.mk (text.data.map Char.toLower)) with
      | false =>
        simp only [hm, Bool.false_eq_true, if_false] at h
        exact ih st st' h
      | true =>
        simp only [hm, if_true] at h
        rcases ih _ st' h with ⟨added', hcats, hmem, herr, htxt, hnum, hout⟩
        refine ⟨(⟨cat, false, none⟩ : ResponseCategory) :: added', ?_, ?_, ?_, ?_, ?_, ?_⟩
        · rw [hcats]; cases hec : cat.error_category <;> simp [hec]
        · intro rc hrc
          rcases List.mem_cons.mp hrc with h1 | h1
          · exact h1
          · exact hmem rc h1
        · rw [herr]; cases hec : cat.error_category <;> simp [hec, Bool.or_assoc]
        · rw [htxt]; cases hec : cat.error_category <;> simp [hec]
        · rw [hnum]; cases hec : cat.error_category <;> simp [hec]
        · cases ht : strTruthy cat.response with
          | true =>
            right
            refine ⟨by simp, rfl, ?_⟩
            rcases hout with h1 | ⟨_, _, h1⟩ <;> rw [h1] <;> simp [ht]
          | false =>
            rcases hout with h1 | ⟨_, hcontra, _⟩
            · left; rw [h1]; simp [ht]
            · rw [ht] at hcontra; cases hcontra

/-- What an `ok` run of `catLoopP` did: it appended fresh non-override
assignments, or-ed `has_errors` with their error flags, left the stored
values alone, and changed the outgoing message only to the truthy reply of
some newly assigned category. -/
lemma catLoopP_ok (compile : Compile) (text : String) (cats : List Category) :
    ∀ (st st' : ProcSt),
    catLoopP compile text cats st = Except.ok st' →
    ∃ added : List ResponseCategory,
      st'.resp.categories = st.resp.categories ++ added ∧
      (∀ rc ∈ added, rc.is_override = false ∧ rc.user = none) ∧
      st'.resp.has_errors
        = (st.resp.has_errors || added.any (fun rc => rc.category.error_category)) ∧
      st'.resp.text = st.resp.text ∧
      st'.resp.number_value = st.resp.number_value ∧
      (st'.outgoing = st.outgoing ∨
        ∃ rc ∈ added, strTruthy rc.category.response = true ∧
          st'.outgoing = rc.category.response) := by
  induction cats with
  | nil =>
    intro st st' h
    simp only [catLoopP] at h
    cases h
    exact ⟨[], by simp⟩
  | cons c cs ih =>
    intro st st' h
    simp only [catLoopP] at h
    cases hr : ruleLoopP compile text c c.rules st with
    | error e => rw [hr] at h; cases h
    | ok st1 =>
      rw [hr] at h
      rcases ruleLoopP_ok compile text c c.rules st st1 hr with
        ⟨a1, hcats1, hmem1, herr1, htxt1, hnum1, hout1⟩
      rcases ih st1 st' h with ⟨a2, hcats2, hmem2, herr2, htxt2, hnum2, hout2⟩
      refine ⟨a1 ++ a2, ?_, ?_, ?_, ?_, ?_, ?_⟩
      · rw [hcats2, hcats1, List.append_assoc]
      · intro rc hrc
        rcases List.mem_append.mp hrc with h1 | h1
        · rw [hmem1 rc h1]; exact ⟨rfl, rfl⟩
        · exact hmem2 rc h1
      · rw [herr2, herr1]; simp [Bool.or_assoc]
      · rw [htxt2, htxt1]
      · rw [hnum2, hnum1]
      · rcases hout2 with h2 | ⟨rc, hrc, hth, heq⟩
        · rcases hout1 with h1 | ⟨hne, hth, heq⟩
          · left; rw [h2, h1]
          · right
            rcases List.exists_mem_of_ne_nil a1 hne with ⟨rc, hrc⟩
            refine ⟨rc, List.mem_append_left a2 hrc, ?_, ?_⟩
            · rw [hmem1 rc hrc]; exact hth
            · rw [h2, heq, hmem1 rc hrc]
        · right; exact ⟨rc, List.mem_append_right a1 hrc, hth, heq⟩

/-- An `ok` run of `ruleLoopP` compiled every rule it visited — and it
visits all of them (no `break`). -/
lemma ruleLoopP_compiles (compile : Compile) (text : String) (cat : Category)
    (rules : List Rule) : ∀ (st st' : ProcSt),
    ruleLoopP compile text cat rules st = Except.ok st' →
    ∀ r ∈ rules, compile r.regex ≠ none := by
  induction rules with
  | nil => intro st st' _ r hr; simp at hr
  | cons rule rs ih =>
    intro st st' h r hr
    simp only [ruleLoopP] at h
    cases hc : compile rule.regex with
    | none => simp only [hc] at h; exact Except.noConfusion h
    | some m =>
      simp only [hc] at h
      rcases List.mem_cons.mp hr with h1 | h1
      · rw [h1, hc]; exact fun hx => Option.noConfusion hx
      · cases hm : m (String.mk (text.data.map Char.toLower)) with
        | false =>
          simp only [hm, Bool.false_eq_true, if_false] at h
          exact ih st st' h r h1
        | true =>
          simp only [hm, if_true] at h
          exact ih _ st' h r h1

/-- An `ok` run of `catLoopP` compiled every rule of every category. -/
lemma catLoopP_compiles (compile : Compile) (text : String) (cats : List Category) :
    ∀ (st st' : ProcSt),
    catLoopP compile text cats st = Except.ok st' →
    ∀ c ∈ cats, ∀ r ∈ c.rules, compile r.regex ≠ none := by
  induction cats with
  | nil => intro st st' _ c hc; simp at hc
  | cons c0 cs ih =>
    intro st st' h c hc r hr
    simp only [catLoopP] at h
    cases hrl : ruleLoopP compile text c0 c0.rules st with
    | error e => rw [hrl] at h; cases h
    | ok st1 =>
      rw [hrl] at h
      rcases List.mem_cons.mp hc with h1 | h1
      · subst h1; exact ruleLoopP_compiles compile text c c.rules st st1 hrl r hr
      · exact ih st1 st' h c h1 r hr

/-- If no rule of the list matches (and all compile), `ruleLoopP` leaves the
state untouched. -/
lemma ruleLoopP_nomatch (compile : Compile) (text : String) (cat : Category)
    (rules : List Rule) (st : ProcSt)
    (h : ∀ r ∈ rules, ∃ m, compile r.regex = some m ∧
      m (String.mk (text.data.map Char.toLower)) = false) :
    ruleLoopP compile text cat rules st = Except.ok st := by
  induction rules with
  | nil => rfl
  | cons rule rs ih =>
    rcases h rule (List.mem_cons_self rule rs) with ⟨m, hc, hm⟩
    simp only [ruleLoopP, hc, hm, Bool.false_eq_true, if_false]
    exact ih (fun r hr => h r (List.mem_cons_of_mem rule hr))

/-- If no rule of any category matches, `catLoopP` leaves the state
untouched. -/
lemma catLoopP_nomatch (compile : Compile) (text : String) (cats : List Category)
    (st : ProcSt)
    (h : ∀ c ∈ cats, ∀ r ∈ c.rules, ∃ m, compile r.regex = some m ∧
      m (String.mk (text.data.map Char.toLower)) = false) :
    catLoopP compile text cats st = Except.ok st := by
  induction cats with
  | nil => rfl
  | cons c cs ih =>
    simp only [catLoopP, ruleLoopP_nomatch compile text c c.rules st
      (h c (List.mem_cons_self c cs))]
    exact ih (fun c' hc' => h c' (List.mem_cons_of_mem c hc'))

/-- What an `ok` run of `ruleLoopR` did: nothing, or (when the category was
not yet assigned) it appended the one plain assignment to `category` — the
`break` stops the loop right there. -/
lemma ruleLoopR_ok (compile : Compile) (cat : Category) (rules : List Rule) :
    ∀ (resp resp' : Response),
    ruleLoopR compile cat rules resp = Except.ok resp' →
    resp' = resp ∨
      ((resp.categories.filter (fun rc => rc.category.pk = cat.pk)).isEmpty = true ∧
        resp'.categories = resp.categories ++ [⟨cat, false, none⟩] ∧
        resp'.has_errors = (resp.has_errors || cat.error_category) ∧
        resp'.text = resp.text ∧
        resp'.number_value = resp.number_value) := by
  induction rules with
  | nil =>
    intro resp resp' h
    simp only [ruleLoopR] at h
    cases h
    exact Or.inl rfl
  | cons rule rs ih =>
    intro resp resp' h
    simp only [ruleLoopR] at h
    cases hc : compile rule.regex with
    | none => simp only [hc] at h; exact Except.noConfusion h
    | some m =>
      simp only [hc] at h
      cases htt : strTruthy resp.text with
      | false =>
        simp only [htt, Bool.false_eq_true, if_false] at h
        exact ih resp resp' h
      | true =>
        simp only [htt, if_true] at h
        cases hcond : (m (String.mk (((resp.text.getD "").data.map Char.toLower))) &&
            (resp.categories.filter (fun rc => rc.category.pk = cat.pk)).isEmpty) with
        | false =>
          simp only [hcond, Bool.false_eq_true, if_false] at h
          exact ih resp resp' h
        | true =>
          simp only [hcond, if_true] at h
          cases h
          right
          refine ⟨(Bool.and_eq_true _ _ |>.mp hcond).2, ?_, ?_, ?_, ?_⟩ <;>
            cases hec : cat.error_category <;> simp [hec]

/-- What an `ok` run of `catLoopR` did: it appended fresh non-override
assignments with pairwise distinct category pks, none of which was already
assigned, and it left the stored values alone. -/
lemma catLoopR_ok (compile : Compile) (cats : List Category) :
    ∀ (resp resp' : Response),
    catLoopR compile cats resp = Except.ok resp' →
    ∃ added : List ResponseCategory,
      resp'.categories = resp.categories ++ added ∧
      (∀ rc ∈ added, rc.is_override = false ∧ rc.user = none) ∧
      (added.map (fun rc => rc.category.pk)).Nodup ∧
      (∀ rc ∈ added, rc.category.pk ∉ resp.categories.map (fun x => x.category.pk)) ∧
      resp'.text = resp.text ∧
      resp'.number_value = resp.number_value := by
  induction cats with
  | nil =>
    intro resp resp' h
    simp only [catLoopR] at h
    cases h
    exact ⟨[], by simp⟩
  | cons c cs ih =>
    intro resp resp' h
    simp only [catLoopR] at h
    cases hr : ruleLoopR compile c c.rules resp with
    | error e => rw [hr] at h; cases h
    | ok resp1 =>
      rw [hr] at h
      rcases ih resp1 resp' h with ⟨a2, hcats2, hmem2, hnd2, hdis2, htxt2, hnum2⟩
      rcases ruleLoopR_ok compile c c.rules resp resp1 hr with heq | ⟨hemp, hcats1, _, htxt1, hnum1⟩
      · subst heq
        exact ⟨a2, hcats2, hmem2, hnd2, hdis2, htxt2, hnum2⟩
      · have hnotin : c.pk ∉ resp.categories.map (fun x => x.category.pk) :=
          filter_pk_isEmpty hemp
        refine ⟨(⟨c, false, none⟩ : ResponseCategory) :: a2, ?_, ?_, ?_, ?_, ?_, ?_⟩
        · rw [hcats2, hcats1]; simp
        · intro rc hrc
          rcases List.mem_cons.mp hrc with h1 | h1
          · rw [h1]; exact ⟨rfl, rfl⟩
          · exact hmem2 rc h1
        · rw [List.map_cons, List.nodup_cons]
          constructor
          · intro hmem
            rcases List.mem_map.mp hmem with ⟨rc, hrc, hpk⟩
            have := hdis2 rc hrc
            rw [hcats1] at this
            exact this (by
              rw [List.map_append, List.mem_append]
              right
              rw [hpk]
              simp)
          · exact hnd2
        · intro rc hrc
          rcases List.mem_cons.mp hrc with h1 | h1
          · rw [h1]; exact hnotin
          · intro hmem
            have := hdis2 rc h1
            rw [hcats1] at this
            exact this (by rw [List.map_append, List.mem_append]; left; exact hmem)
        · rw [htxt2, htxt1]
        · rw [hnum2, hnum1]

/-- `process_response` on a text poll is the category/rule loops followed by
the fallback-and-reply tail. -/
lemma process_response_t (compile : Compile) (poll : Poll) (text : String)
    (h : poll.type = "t") :
    Poll.process_response compile poll text =
      Except.bind
        (catLoopP compile text poll.categories
          ⟨⟨some text, none, false, []⟩, poll.default_response⟩)
        (processFallbackReply poll) := by
  unfold Poll.process_response
  rw [h]
  rfl

/-- `process_response` on a numeric poll whose text splits into four parts
with the number in group-1 position. -/
lemma process_response_n_four (compile : Compile) (poll : Poll) (text : String)
    (p0 : Option (List Char)) (t : List Char) (f p3 : Option (List Char))
    (h : poll.type = "n") (hs : splitNumeric text = [p0, some t, f, p3]) :
    Poll.process_response compile poll text =
      processFallbackReply poll
        ⟨⟨none, some (pyFloat t), false, []⟩, poll.default_response⟩ := by
  unfold Poll.process_response
  rw [h, hs]
  rfl

/-- `process_response` on a numeric poll whose text splits into four parts
with `None` in group-1 position (impossible for this regex, but the branch
exists: `float(None)` would raise `TypeError`). -/
lemma process_response_n_none (compile : Compile) (poll : Poll) (text : String)
    (p0 f p3 : Option (List Char))
    (h : poll.type = "n") (hs : splitNumeric text = [p0, none, f, p3]) :
    Poll.process_response compile poll text = Except.error "TypeError" := by
  unfold Poll.process_response
  rw [h, hs]
  rfl

/-- `process_response` on a numeric poll whose text does not split into four
parts: `has_errors` is set before the fallback-and-reply tail. -/
lemma process_response_n_other (compile : Compile) (poll : Poll) (text : String)
    (h : poll.type = "n") (hlen : (splitNumeric text).length ≠ 4) :
    Poll.process_response compile poll text =
      processFallbackReply poll
        ⟨⟨none, none, true, []⟩, poll.default_response⟩ := by
  unfold Poll.process_response
  rw [h]
  rcases hs : splitNumeric text with _ | ⟨a, _ | ⟨b, _ | ⟨c, _ | ⟨d, _ | ⟨e, rest⟩⟩⟩⟩⟩
  · rfl
  · rfl
  · cases b <;> rfl
  · cases b <;> rfl
  · rw [hs] at hlen; exact absurd rfl hlen
  · cases b <;> rfl

/-- An `ok` run of the fallback-and-reply tail is the default step followed
by the reply scan. -/
lemma processFallbackReply_elim (poll : Poll) (st : ProcSt)
    (resp : Response) (out : Option String)
    (h : processFallbackReply poll st = Except.ok (resp, out)) :
    ∃ st2 : ProcSt, processDefaultStep poll st = Except.ok st2 ∧ (resp, out) = replyScan st2 := by
  unfold processFallbackReply at h
  cases hd : processDefaultStep poll st with
  | error e => rw [hd] at h; exact Except.noConfusion h
  | ok st2 =>
    rw [hd] at h
    refine ⟨st2, rfl, ?_⟩
    cases h
    rfl

/-- What an `ok` default step did: nothing (when assignments exist or there
is no default category), or it assigned the unique default category,
raising `has_errors` and replacing the outgoing message by the default's
reply when that category is an error category. -/
lemma processDefaultStep_elim (poll : Poll) (st : ProcSt) (st2 : ProcSt)
    (h : processDefaultStep poll st = Except.ok st2) :
    ((st.resp.categories.isEmpty &&
        !((poll.categories.filter (fun c => c.default)).isEmpty)) = false ∧ st2 = st) ∨
      ∃ d, (st.resp.categories.isEmpty &&
          !((poll.categories.filter (fun c => c.default)).isEmpty)) = true ∧
        getDefaultCat poll.categories = Except.ok d ∧
        ((d.error_category = true ∧
            st2 = (⟨{ st.resp with
              categories := st.resp.categories ++ [⟨d, false, none⟩]
              has_errors := true }, d.response⟩ : ProcSt)) ∨
          (d.error_category = false ∧
            st2 = (⟨{ st.resp with
              categories := st.resp.categories ++ [⟨d, false, none⟩] }, st.outgoing⟩ : ProcSt))) := by
  unfold processDefaultStep at h
  cases hcond : (st.resp.categories.isEmpty &&
      !((poll.categories.filter (fun c => c.default)).isEmpty)) with
  | false =>
    rw [hcond] at h
    simp only [Bool.false_eq_true, if_false] at h
    cases h
    exact Or.inl ⟨rfl, rfl⟩
  | true =>
    rw [hcond] at h
    simp only [if_true] at h
    cases hd : getDefaultCat poll.categories with
    | error e => rw [hd] at h; exact Except.noConfusion h
    | ok d =>
      rw [hd] at h
      cases hec : d.error_category with
      | true =>
        simp only [hec, if_true] at h
        cases h
        exact Or.inr ⟨d, rfl, rfl, Or.inl ⟨hec, rfl⟩⟩
      | false =>
        simp only [hec, Bool.false_eq_true, if_false] at h
        cases h
        exact Or.inr ⟨d, rfl, rfl, Or.inr ⟨hec, rfl⟩⟩

/-- The reply scan never changes the response row. -/
lemma replyScan_resp (st : ProcSt) : (replyScan st).1 = st.resp := by
  unfold replyScan
  cases hsc : (!st.resp.has_errors || !(strTruthy st.outgoing)) with
  | false => rfl
  | true =>
    simp only [if_true]
    cases hf : (sortByPriority st.resp.categories).find?
        (fun rc => strTruthy rc.category.response) with
    | none => rfl
    | some rc => rfl

/-- On an error-free response the reply scan returns the first truthy reply
of the priority-sorted assigned categories, or the pending outgoing message
when there is none. -/
lemma replyScan_out_noerr (st : ProcSt) (h : st.resp.has_errors = false) :
    (replyScan st).2 = finalReply
      (match (sortByPriority st.resp.categories).find?
          (fun rc => strTruthy rc.category.response) with
        | some rc => rc.category.response
        | none => st.outgoing) := by
  unfold replyScan
  rw [h]
  simp only [Bool.not_false, Bool.true_or, if_true]
  cases hf : (sortByPriority st.resp.categories).find?
      (fun rc => strTruthy rc.category.response) with
  | none => rfl
  | some rc => rfl

/-- Django `.get(default=True)` succeeds with the unique default category
when the filter returns a singleton. -/
lemma getDefaultCat_of_filter (cats : List Category) (d : Category)
    (h : cats.filter (fun c => c.default) = [d]) :
    getDefaultCat cats = Except.ok d := by
  unfold getDefaultCat
  rw [h]

/-- A nonempty pk filter witnesses pk membership. -/
lemma filter_pk_mem {l : List ResponseCategory} {k : Nat}
    (h : (l.filter (fun rc => rc.category.pk = k)).isEmpty = false) :
    k ∈ l.map (fun rc => rc.category.pk) := by
  have hne : l.filter (fun rc => rc.category.pk = k) ≠ [] := by
    intro hnil
    rw [hnil] at h
    exact Bool.noConfusion h
  rcases List.exists_mem_of_ne_nil _ hne with ⟨x, hx⟩
  rcases List.mem_filter.mp hx with ⟨hxl, hxp⟩
  exact List.mem_map.mpr ⟨x, hxl, by simpa using hxp⟩

/-- What the first loop of `update_categories` did: it appended one new
override assignment (carrying the acting user) for exactly those chosen
category pks that were not yet assigned. -/
lemma updateCategoriesAdd_elim (user : Nat) :
    ∀ (cs : List Category) (rcs : List ResponseCategory),
    ∃ created : List ResponseCategory,
      updateCategoriesAdd user cs rcs = rcs ++ created ∧
      (∀ rc ∈ created, rc.is_override = true ∧ rc.user = some user) ∧
      (∀ p : Nat, p ∈ created.map (fun rc => rc.category.pk) ↔
        (p ∈ cs.map (fun c => c.pk) ∧ p ∉ rcs.map (fun rc => rc.category.pk))) := by
  intro cs
  induction cs with
  | nil =>
    intro rcs
    exact ⟨[], by simp [updateCategoriesAdd]⟩
  | cons c cs' ih =>
    intro rcs
    cases hguard : (rcs.filter (fun rc => rc.category.pk = c.pk)).isEmpty with
    | true =>
      have hnotin : c.pk ∉ rcs.map (fun rc => rc.category.pk) := filter_pk_isEmpty hguard
      rcases ih (rcs ++ [⟨c, true, some user⟩]) with ⟨created', heq, hmem, hiff⟩
      refine ⟨(⟨c, true, some user⟩ : ResponseCategory) :: created', ?_, ?_, ?_⟩
      · simp only [updateCategoriesAdd, hguard, if_true]
        rw [heq]
        simp
      · intro rc hrc
        rcases List.mem_cons.mp hrc with h1 | h1
        · rw [h1]; exact ⟨rfl, rfl⟩
        · exact hmem rc h1
      · intro p
        have hiff' := hiff p
        rw [List.map_append] at hiff'
        simp only [List.map_cons, List.map_nil, List.mem_append, List.mem_singleton] at hiff'
        constructor
        · intro hp
          rcases List.mem_cons.mp hp with h1 | h1
          · simp only [h1]
            exact ⟨by simp, hnotin⟩
          · rcases (hiff'.mp h1) with ⟨hcs, hrcs⟩
            refine ⟨by simp [hcs], fun hmem2 => hrcs (Or.inl hmem2)⟩
        · intro ⟨hp1, hp2⟩
          rw [List.map_cons, List.mem_cons] at hp1
          rw [List.map_cons, List.mem_cons]
          rcases hp1 with h1 | h1
          · left; simpa using h1
          · by_cases hpc : p = c.pk
            · left; simpa using hpc
            · right
              refine hiff'.mpr ⟨h1, ?_⟩
              intro hor
              rcases hor with h2 | h2
              · exact hp2 h2
              · exact hpc h2
    | false =>
      have hin : c.pk ∈ rcs.map (fun rc => rc.category.pk) := filter_pk_mem hguard
      rcases ih rcs with ⟨created', heq, hmem, hiff⟩
      refine ⟨created', ?_, hmem, ?_⟩
      · simp only [updateCategoriesAdd, hguard, Bool.false_eq_true, if_false]
        exact heq
      · intro p
        rw [hiff p]
        constructor
        · intro ⟨hp1, hp2⟩
          exact ⟨by simp [hp1], hp2⟩
        · intro ⟨hp1, hp2⟩
          rw [List.map_cons, List.mem_cons] at hp1
          rcases hp1 with h1 | h1
          · exact absurd (h1 ▸ hin) hp2
          · exact ⟨h1, hp2⟩

/-- An `ok` run of `reprocessOne` is the category/rule loops on the
override-only response followed by the default step. -/
lemma reprocessOne_elim (compile : Compile) (poll : Poll) (resp0 resp' : Response)
    (h : reprocessOne compile poll resp0 = Except.ok resp') :
    ∃ resp2 : Response,
      catLoopR compile poll.categories
        { resp0 with
          categories := resp0.categories.filter (fun rc => rc.is_override)
          has_errors := false } = Except.ok resp2 ∧
      reprocessDefaultStep poll resp2 = Except.ok resp' := by
  unfold reprocessOne at h
  cases hcat : catLoopR compile poll.categories
      { resp0 with
        categories := resp0.categories.filter (fun rc => rc.is_override)
        has_errors := false } with
  | error e => rw [hcat] at h; exact Except.noConfusion h
  | ok resp2 =>
    rw [hcat] at h
    exact ⟨resp2, rfl, h⟩

/-- What an `ok` reprocessing default step did: nothing, or it appended the
unique default category (or-ing `has_errors` with its error flag) to an
empty assignment list. -/
lemma reprocessDefaultStep_elim (poll : Poll) (resp resp' : Response)
    (h : reprocessDefaultStep poll resp = Except.ok resp') :
    ((resp.categories.isEmpty &&
        !((poll.categories.filter (fun c => c.default)).isEmpty)) = false ∧ resp' = resp) ∨
      ∃ d, (resp.categories.isEmpty &&
          !((poll.categories.filter (fun c => c.default)).isEmpty)) = true ∧
        getDefaultCat poll.categories = Except.ok d ∧
        resp'.categories = resp.categories ++ [⟨d, false, none⟩] ∧
        resp'.has_errors = (resp.has_errors || d.error_category) ∧
        resp'.text = resp.text ∧
        resp'.number_value = resp.number_value := by
  unfold reprocessDefaultStep at h
  cases hcond : (resp.categories.isEmpty &&
      !((poll.categories.filter (fun c => c.default)).isEmpty)) with
  | false =>
    rw [hcond] at h
    simp only [Bool.false_eq_true, if_false] at h
    cases h
    exact Or.inl ⟨rfl, rfl⟩
  | true =>
    rw [hcond] at h
    simp only [if_true] at h
    cases hd : getDefaultCat poll.categories with
    | error e => rw [hd] at h; exact Except.noConfusion h
    | ok d =>
      simp only [hd] at h
      refine Or.inr ⟨d, rfl, rfl, ?_⟩
      cases hec : d.error_category <;> simp only [hec] at h <;> cases h <;> simp [hec]

/-- If no rule of the list matches (all compile, none searches true),
`ruleLoopR` leaves the response untouched. -/
lemma ruleLoopR_nomatch (compile : Compile) (cat : Category) (rules : List Rule)
    (resp : Response)
    (h : ∀ r ∈ rules, ∃ m, compile r.regex = some m ∧
      m (String.mk (((resp.text.getD "").data.map Char.toLower))) = false) :
    ruleLoopR compile cat rules resp = Except.ok resp := by
  induction rules with
  | nil => rfl
  | cons rule rs ih =>
    rcases h rule (List.mem_cons_self rule rs) with ⟨m, hc, hm⟩
    simp only [ruleLoopR, hc, hm, Bool.false_and, Bool.false_eq_true, if_false]
    cases htt : strTruthy resp.text <;>
      simp only [htt, Bool.false_eq_true, if_false, if_true] <;>
      exact ih (fun r hr => h r (List.mem_cons_of_mem rule hr))

/-- If no rule of any category matches, `catLoopR` leaves the response
untouched. -/
lemma catLoopR_nomatch (compile : Compile) (cats : List Category) (resp : Response)
    (h : ∀ c ∈ cats, ∀ r ∈ c.rules, ∃ m, compile r.regex = some m ∧
      m (String.mk (((resp.text.getD "").data.map Char.toLower))) = false) :
    catLoopR compile cats resp = Except.ok resp := by
  induction cats with
  | nil => rfl
  | cons c cs ih =>
    simp only [catLoopR, ruleLoopR_nomatch compile c c.rules resp
      (h c (List.mem_cons_self c cs))]
    exact ih (fun c' hc' => h c' (List.mem_cons_of_mem c hc'))

/-! ## Claim theorems -/

/-- C1, counterexample: under an engine where both stored rules of the
single category (pk 5) match, `process_response` assigns that category twice
in one pass — there is no per-category short-circuit and no duplicate guard
in this function, so "a single category is assigned to the response at most
once per pass" fails on it. -/
theorem process_response_duplicate_assignment :
    (Poll.process_response cAll pollDup "hello").map
      (fun p => p.1.categories.map (fun rc => rc.category.pk)) = Except.ok [5, 5] ∧
    pollDup.categories.map (fun c => c.pk) = [5] :=
  ⟨rfl, rfl⟩

/-- C1 (amended): in `reprocess_responses` the first matching rule does
short-circuit and already-assigned categories are skipped, so after a
reprocessing pass every category is assigned at most once (given that the
override assignments surviving the initial delete are unique per category);
`process_response`, in contrast, assigns a category once per matching rule
(see the counterexample). -/
theorem reprocess_assigns_category_at_most_once (compile : Compile) (poll : Poll)
    (resp0 resp' : Response)
    (hok : reprocessOne compile poll resp0 = Except.ok resp')
    (hnd : ((resp0.categories.filter (fun rc => rc.is_override)).map
      (fun rc => rc.category.pk)).Nodup) :
    (resp'.categories.map (fun rc => rc.category.pk)).Nodup := by
  rcases reprocessOne_elim compile poll resp0 resp' hok with ⟨resp2, hcat, hstep⟩
  rcases catLoopR_ok compile poll.categories _ resp2 hcat with
    ⟨added, hcats, _, hndadded, hdis, _, _⟩
  have hnd2 : (resp2.categories.map (fun rc => rc.category.pk)).Nodup := by
    rw [hcats, List.map_append]
    refine List.Nodup.append hnd hndadded ?_
    intro a ha1 ha2
    rcases List.mem_map.mp ha2 with ⟨rc, hrc, hpk⟩
    exact (hdis rc hrc) (hpk ▸ ha1)
  rcases reprocessDefaultStep_elim poll resp2 resp' hstep with ⟨_, heq⟩ |
    ⟨d, hcond, _, hcats', _, _, _⟩
  · rw [heq]; exact hnd2
  · rw [hcats', (List.isEmpty_iff.mp ((Bool.and_eq_true _ _).mp hcond).1)]
    simp

/-- C1, witness for the amended theorem at a concrete input. -/
theorem reprocess_assigns_category_at_most_once_witness :
    reprocessOne cAll pollW respW = Except.ok respW' ∧
    ((respW.categories.filter (fun rc => rc.is_override)).map
      (fun rc => rc.category.pk)).Nodup ∧
    (respW'.categories.map (fun rc => rc.category.pk)).Nodup :=
  ⟨rfl, by decide,
    reprocess_assigns_category_at_most_once cAll pollW respW respW' rfl (by decide)⟩

/-- C2, counterexample: `ParseValue(Numeric, "age19")` does **not** fail —
the split is `['age', '19', None, '']` (four parts), so the response stores
`19.0` and `has_errors` stays false. The other two spec examples hold:
`"19 years"` yields `19.0` and `"ugx34.56shs"` yields `34.56`. -/
theorem numeric_age19_parses :
    (Poll.process_response cAll pollNum "age19").map
      (fun p => (p.1.has_errors, p.1.number_value))
      = Except.ok (false, some (pyFloat "19".data)) ∧
    pyFloat "19".data = 19 ∧
    (Poll.process_response cAll pollNum "19 years").map
      (fun p => (p.1.has_errors, p.1.number_value))
      = Except.ok (false, some (pyFloat "19".data)) ∧
    (Poll.process_response cAll pollNum "ugx34.56shs").map
      (fun p => (p.1.has_errors, p.1.number_value))
      = Except.ok (false, some (pyFloat "34.56".data)) ∧
    pyFloat "34.56".data = 34.56 := by
  refine ⟨rfl, ?_, rfl, rfl, ?_⟩
  · have h1 : "19".data.takeWhile (fun c => c.isDigit) = "19".data := by decide
    have h2 : "19".data.dropWhile (fun c => c.isDigit) = [] := by decide
    simp [pyFloat, h1, h2, show digitsToNat "19".data = 19 from by decide]
  · have h1 : "34.56".data.takeWhile (fun c => c.isDigit) = "34".data := by decide
    have h2 : "34.56".data.dropWhile (fun c => c.isDigit) = '.' :: "56".data := by decide
    simp [pyFloat, h1, h2, show digitsToNat "34".data = 34 from by decide,
      show digitsToNat "56".data = 56 from by decide]
    norm_num

/-- C2 (amended): numeric parsing succeeds — a float value is stored —
exactly when the split on the signed-decimal regex yields four parts, the
stored value is `float` of the group-1 token, and (when no default category
interferes with `has_errors`) `has_errors` is set exactly when the split is
not a 4-way one. The spec's example `"age19"` is a 4-way split and parses to
`19.0`; `"19 years"` and `"ugx34.56shs"` parse to `19.0` and `34.56` (see
the counterexample theorem for the concrete evaluations). -/
theorem numeric_parse_iff_four_way_split (compile : Compile) (poll : Poll)
    (text : String) (resp : Response) (out : Option String)
    (htype : poll.type = "n")
    (hok : Poll.process_response compile poll text = Except.ok (resp, out)) :
    (resp.number_value.isSome ↔ (splitNumeric text).length = 4) ∧
    (∀ p0 t f p3, splitNumeric text = [p0, some t, f, p3] →
      resp.number_value = some (pyFloat t)) ∧
    ((poll.categories.filter (fun c => c.default)).isEmpty = true →
      (resp.has_errors = true ↔ (splitNumeric text).length ≠ 4)) := by
  rcases hsplit : splitNumeric text with _ | ⟨a, _ | ⟨b, _ | ⟨c, _ | ⟨d, _ | ⟨e, rest⟩⟩⟩⟩⟩
  case cons.cons.cons.cons.nil =>
    -- a 4-element split
    cases b with
    | none =>
      rw [process_response_n_none compile poll text a c d htype hsplit] at hok
      exact Except.noConfusion hok
    | some t =>
      rw [process_response_n_four compile poll text a t c d htype hsplit] at hok
      rcases processFallbackReply_elim poll _ resp out hok with ⟨st2, hstep, hpair⟩
      have hresp : resp = st2.resp := by
        have h1 := congrArg Prod.fst hpair
        rw [replyScan_resp] at h1
        exact h1
      rcases processDefaultStep_elim poll _ st2 hstep with ⟨_, hst⟩ | ⟨d', hcond, _, hor⟩
      · rw [hresp, hst]
        refine ⟨by simp, ?_, fun _ => by simp⟩
        intro p0 t' f' p3 hs'
        cases hs'
        rfl
      · rcases hor with ⟨hec, hst⟩ | ⟨hec, hst⟩ <;> rw [hresp, hst] <;>
          refine ⟨by simp, ?_, ?_⟩
        · intro p0 t' f' p3 hs'
          cases hs'
          simp
        · intro hnodef
          rw [hnodef] at hcond
          simp at hcond
        · intro p0 t' f' p3 hs'
          cases hs'
          simp
        · intro hnodef
          rw [hnodef] at hcond
          simp at hcond
  all_goals
    (first
      | (rw [process_response_n_other compile poll text htype (by rw [hsplit]; intro hlen4; simp only [List.length_cons, List.length_nil] at hlen4; omega)] at hok
         rcases processFallbackReply_elim poll _ resp out hok with ⟨st2, hstep, hpair⟩
         have hresp : resp = st2.resp := by
           have h1 := congrArg Prod.fst hpair
           rw [replyScan_resp] at h1
           exact h1
         rcases processDefaultStep_elim poll _ st2 hstep with ⟨_, hst⟩ | ⟨d', hcond, _, hor⟩
         · rw [hresp, hst]
           refine ⟨by simp [hsplit], ?_, fun _ => by simp [hsplit]⟩
           intro p0 t' f' p3 hs'
           cases hs'
         · rcases hor with ⟨hec, hst⟩ | ⟨hec, hst⟩ <;> rw [hresp, hst] <;>
             refine ⟨by simp [hsplit], ?_, ?_⟩
           · intro p0 t' f' p3 hs'
             cases hs'
           · intro hnodef
             rw [hnodef] at hcond
             simp at hcond
           · intro p0 t' f' p3 hs'
             cases hs'
           · intro hnodef
             rw [hnodef] at hcond
             simp at hcond))

/-- C2, witness for the amended theorem at a concrete input. -/
theorem numeric_parse_iff_four_way_split_witness :
    pollNum.type = "n" ∧
    Poll.process_response cAll pollNum "19 years" = Except.ok (respN19, none) ∧
    ((respN19.number_value.isSome ↔ (splitNumeric "19 years").length = 4) ∧
      (∀ p0 t f p3, splitNumeric "19 years" = [p0, some t, f, p3] →
        respN19.number_value = some (pyFloat t)) ∧
      ((pollNum.categories.filter (fun c => c.default)).isEmpty = true →
        (respN19.has_errors = true ↔ (splitNumeric "19 years").length ≠ 4))) :=
  ⟨rfl, rfl, numeric_parse_iff_four_way_split cAll pollNum "19 years" respN19 none rfl rfl⟩

/-- C3, counterexample: with a stored rule pattern `"("` that raises
`re.error` at compile time, `process_response` aborts with the exception —
the malformed rule is not skipped and the matching second category is never
reached (there is no try/except around `re.compile` in classification). -/
theorem regex_error_not_skipped :
    cFail rBad.regex = none ∧
    Poll.process_response cFail pollBad "hello" = Except.error "re.error" :=
  ⟨rfl, rfl⟩

/-- C3 (amended): a stored rule regex that fails to compile aborts
processing of the whole response (and hence of the batch): for a text poll
containing any rule whose pattern does not compile, `process_response`
never returns `ok`. -/
theorem regex_error_aborts_processing (compile : Compile) (poll : Poll)
    (text : String) (c : Category) (r : Rule)
    (htype : poll.type = "t") (hc : c ∈ poll.categories) (hr : r ∈ c.rules)
    (hfail : compile r.regex = none) :
    exceptIsOk (Poll.process_response compile poll text) = false := by
  cases hres : Poll.process_response compile poll text with
  | error e => rfl
  | ok pr =>
    exfalso
    rw [process_response_t compile poll text htype] at hres
    cases hcat : catLoopP compile text poll.categories
        ⟨⟨some text, none, false, []⟩, poll.default_response⟩ with
    | error e => rw [hcat] at hres; exact Except.noConfusion hres
    | ok st1 =>
      exact (catLoopP_compiles compile text poll.categories _ st1 hcat c hc r hr) hfail

/-- C3, witness for the amended theorem at a concrete input. -/
theorem regex_error_aborts_processing_witness :
    pollBad.type = "t" ∧ catBad ∈ pollBad.categories ∧ rBad ∈ catBad.rules ∧
    cFail rBad.regex = none ∧
    exceptIsOk (Poll.process_response cFail pollBad "hello") = false :=
  ⟨rfl, by decide, by decide, rfl,
    regex_error_aborts_processing cFail pollBad "hello" catBad rBad rfl
      (by decide) (by decide) rfl⟩

/-- C4, counterexample: the pattern compiled for AllOfWords `"a, b"` is
`(?=.*\ba\b)(?=.*\bb\b)`; it does **not** match `"xb a y"`, because `"b"`
occurs there only inside the word `"xb"` and the `\b` assertions require a
whole word. The claim asserts it matches. -/
theorem allofwords_xbay_no_match :
    Rule.get_regex ruleAllAB = some "(?=.*\\ba\\b)(?=.*\\bb\\b)" ∧
    matchesAllOfWords ruleAllAB.rule_string "xb a y" = false := by
  constructor
  · rfl
  · decide

/-- C4 (amended): the AllOfWords `"a, b"` pattern requires each word
whole-word-delimited, so it matches `"b a y"` but matches neither
`"xb a y"` (no whole word `b`) nor `"xb y"`. -/
theorem allofwords_whole_word_semantics :
    matchesAllOfWords ruleAllAB.rule_string "b a y" = true ∧
    matchesAllOfWords ruleAllAB.rule_string "xb a y" = false ∧
    matchesAllOfWords ruleAllAB.rule_string "xb y" = false := by
  refine ⟨?_, ?_, ?_⟩ <;> decide

/-- C5, counterexample: a StartsWith rule whose `rule_string` was mutated to
`"no"` keeps its stale stored regex (compiled from `"yes"`) across `save`,
because `save` recompiles only when the word-list `rule` field is set and
never calls `update_regex`. -/
theorem rule_save_stale_for_startswith :
    Rule.save staleRule = staleRule ∧
    staleRule.rule_type = "sw" ∧
    (Rule.save staleRule).regex ≠ (Rule.update_regex staleRule).regex := by
  refine ⟨rfl, rfl, ?_⟩
  decide

/-- C5 (amended): the stored regex is kept in sync with the current raw
string by `save` only for the word-list kinds — when the `rule` field is 1
(AllOfWords) or 2 (OneOfWords), the saved row's regex equals `get_regex` of
its current fields; for the StartsWith/Contains/Regex kinds `save` leaves
the stored regex untouched (see the counterexample). -/
theorem rule_save_syncs_word_list_kinds (r : Rule)
    (h : r.rule = some 1 ∨ r.rule = some 2) :
    Rule.get_regex (Rule.save r) = some (Rule.save r).regex := by
  rcases h with h | h <;> simp [Rule.save, Rule.get_regex, h]

/-- C5, witness for the amended theorem at a concrete input. -/
theorem rule_save_syncs_word_list_kinds_witness :
    (ruleAllAB.rule = some 1 ∨ ruleAllAB.rule = some 2) ∧
    Rule.get_regex (Rule.save ruleAllAB) = some (Rule.save ruleAllAB).regex :=
  ⟨Or.inl rfl, rule_save_syncs_word_list_kinds ruleAllAB (Or.inl rfl)⟩

/-- C6: in both classification passes, when zero categories matched and the
poll has a unique default category, the response ends up assigned exactly
that default category with `has_errors` equal to its error flag; and (for
`process_response`) `has_errors` is set exactly when some assigned category
carries the error flag. The reprocessing part assumes no surviving override
assignment, matching "zero categories matched". -/
theorem process_default_fallback_and_error_flag :
    (∀ (compile : Compile) (poll : Poll) (text : String) (resp : Response)
        (out : Option String),
      poll.type = "t" →
      Poll.process_response compile poll text = Except.ok (resp, out) →
      (resp.has_errors = resp.categories.any (fun rc => rc.category.error_category)) ∧
      (∀ d, poll.categories.filter (fun c => c.default) = [d] →
        (∀ c ∈ poll.categories, ∀ r ∈ c.rules, ∃ m, compile r.regex = some m ∧
          m (String.mk (text.data.map Char.toLower)) = false) →
        resp.categories = [⟨d, false, none⟩] ∧ resp.has_errors = d.error_category)) ∧
    (∀ (compile : Compile) (poll : Poll) (resp0 resp' : Response),
      reprocessOne compile poll resp0 = Except.ok resp' →
      resp0.categories.filter (fun rc => rc.is_override) = [] →
      (∀ c ∈ poll.categories, ∀ r ∈ c.rules, ∃ m, compile r.regex = some m ∧
        m (String.mk (((resp0.text.getD "").data.map Char.toLower))) = false) →
      ∀ d, poll.categories.filter (fun c => c.default) = [d] →
      resp'.categories = [⟨d, false, none⟩] ∧ resp'.has_errors = d.error_category) := by
  constructor
  · intro compile poll text resp out htype hok
    rw [process_response_t compile poll text htype] at hok
    cases hcat : catLoopP compile text poll.categories
        ⟨⟨some text, none, false, []⟩, poll.default_response⟩ with
    | error e => rw [hcat] at hok; exact Except.noConfusion hok
    | ok st1 =>
      rw [hcat] at hok
      have hok2 : processFallbackReply poll st1 = Except.ok (resp, out) := hok
      rcases processFallbackReply_elim poll st1 resp out hok2 with ⟨st2, hstep, hpair⟩
      have hresp : resp = st2.resp := by
        have h1 := congrArg Prod.fst hpair
        rw [replyScan_resp] at h1
        exact h1
      rcases catLoopP_ok compile text poll.categories _ st1 hcat with
        ⟨added, hcats1, hmem1, herr1, _, _, _⟩
      have hcats1' : st1.resp.categories = added := by rw [hcats1]; rfl
      have herr1' : st1.resp.has_errors
          = added.any (fun rc => rc.category.error_category) := by
        rw [herr1]; rfl
      constructor
      · rcases processDefaultStep_elim poll st1 st2 hstep with ⟨_, hst⟩ | ⟨d, hcond, _, hor⟩
        · rw [hresp, hst, herr1', hcats1']
        · have hempty : st1.resp.categories = [] :=
            List.isEmpty_iff.mp ((Bool.and_eq_true _ _).mp hcond).1
          have haddednil : added = [] := hcats1'.symm.trans hempty
          rcases hor with ⟨hec, hst⟩ | ⟨hec, hst⟩ <;>
            rw [hresp, hst] <;>
            simp [hempty, hec, herr1', haddednil]
      · intro d hd hnm
        have hnomatch := catLoopP_nomatch compile text poll.categories
          ⟨⟨some text, none, false, []⟩, poll.default_response⟩ hnm
        have hst1 : st1 = ⟨⟨some text, none, false, []⟩, poll.default_response⟩ :=
          (Except.ok.inj (hnomatch.symm.trans hcat)).symm
        subst hst1
        rcases processDefaultStep_elim poll _ st2 hstep with ⟨hcondf, _⟩ | ⟨d', hcond, hd', hor⟩
        · rw [hd] at hcondf
          simp at hcondf
        · have hdd : d' = d :=
            (Except.ok.inj ((getDefaultCat_of_filter poll.categories d hd).symm.trans hd')).symm
          subst hdd
          rcases hor with ⟨hec, hst⟩ | ⟨hec, hst⟩ <;> rw [hresp, hst] <;>
            exact ⟨by simp, by simp [hec]⟩
  · intro compile poll resp0 resp' hok hov hnm d hd
    rcases reprocessOne_elim compile poll resp0 resp' hok with ⟨resp2, hcat, hstep⟩
    have hnomatch := catLoopR_nomatch compile poll.categories
      { resp0 with
        categories := resp0.categories.filter (fun rc => rc.is_override)
        has_errors := false } hnm
    have hresp2 : resp2 =
        { resp0 with
          categories := resp0.categories.filter (fun rc => rc.is_override)
          has_errors := false } :=
      (Except.ok.inj (hnomatch.symm.trans hcat)).symm
    subst hresp2
    rcases reprocessDefaultStep_elim poll _ resp' hstep with ⟨hcondf, _⟩ |
      ⟨d', hcond, hd', hcats', herr', _, _⟩
    · rw [hd] at hcondf
      simp [hov] at hcondf
    · have hdd : d' = d :=
        (Except.ok.inj ((getDefaultCat_of_filter poll.categories d hd).symm.trans hd')).symm
      subst hdd
      constructor
      · rw [hcats']
        simp [hov]
      · rw [herr']
        simp [hov]

/-- C6, witness at a concrete input: a poll whose only category is the
default error category, with text matching no rule, in both passes. -/
theorem process_default_fallback_and_error_flag_witness :
    pollDefErr.type = "t" ∧
    Poll.process_response cNever pollDefErr "zzz" = Except.ok (respDefErr, none) ∧
    pollDefErr.categories.filter (fun c => c.default) = [catDefErr] ∧
    (respDefErr.has_errors = respDefErr.categories.any (fun rc => rc.category.error_category)) ∧
    (respDefErr.categories = [⟨catDefErr, false, none⟩] ∧
      respDefErr.has_errors = catDefErr.error_category) :=
  ⟨rfl, rfl, rfl,
    (process_default_fallback_and_error_flag.1 cNever pollDefErr "zzz" respDefErr none rfl rfl).1,
    (process_default_fallback_and_error_flag.1 cNever pollDefErr "zzz" respDefErr none rfl rfl).2
      catDefErr rfl (fun _ _ _ _ => ⟨fun _ => false, rfl, rfl⟩)⟩

/-- C7, counterexample: a poll with a truthy default reply whose default
category is an error category with a null reply. No assigned category has a
reply, yet the result is `None` rather than the poll's default reply — the
error-default fallback overwrote the outgoing message. -/
theorem reply_skips_default_reply_on_error_default :
    Poll.process_response cAll pollDefErr "zzz" = Except.ok (respDefErr, none) ∧
    strTruthy pollDefErr.default_response = true ∧
    respDefErr.categories.all (fun rc => !(strTruthy rc.category.response)) = true :=
  ⟨rfl, rfl, rfl⟩

/-- C7 (amended): when the processed response carries no errors, the reply
is the first truthy category reply in ascending priority order (nulls last),
falling back to the poll's default reply, a falsy result becoming `None`;
when the response has errors, the outgoing message produced by the error
path (such as an error default category's possibly-null reply) takes
precedence and the poll default reply may never be reached (see the
counterexample). -/
theorem select_reply_priority_order (compile : Compile) (poll : Poll)
    (text : String) (resp : Response) (out : Option String)
    (htype : poll.type = "t")
    (hok : Poll.process_response compile poll text = Except.ok (resp, out))
    (hne : resp.has_errors = false) :
    out = finalReply
      (match (sortByPriority resp.categories).find? (fun rc => strTruthy rc.category.response) with
        | some rc => rc.category.response
        | none => poll.default_response) := by
  rw [process_response_t compile poll text htype] at hok
  cases hcat : catLoopP compile text poll.categories
      ⟨⟨some text, none, false, []⟩, poll.default_response⟩ with
  | error e => rw [hcat] at hok; exact Except.noConfusion hok
  | ok st1 =>
    rw [hcat] at hok
    have hok2 : processFallbackReply poll st1 = Except.ok (resp, out) := hok
    rcases processFallbackReply_elim poll st1 resp out hok2 with ⟨st2, hstep, hpair⟩
    have hresp : resp = st2.resp := by
      have h1 := congrArg Prod.fst hpair
      rw [replyScan_resp] at h1
      exact h1
    have hout : out = (replyScan st2).2 := congrArg Prod.snd hpair
    rw [replyScan_out_noerr st2 (by rw [← hresp]; exact hne)] at hout
    rw [← hresp] at hout
    rcases catLoopP_ok compile text poll.categories _ st1 hcat with
      ⟨added, hcats1, _, _, _, _, houtg⟩
    have hcats1' : st1.resp.categories = added := by rw [hcats1]; rfl
    cases hf : (sortByPriority resp.categories).find? (fun rc => strTruthy rc.category.response) with
    | some rc =>
      rw [hf] at hout
      exact hout
    | none =>
      rw [hf] at hout
      have hout2 : out = finalReply st2.outgoing := hout
      have hnone : ∀ x ∈ resp.categories, ¬ (strTruthy x.category.response = true) := by
        intro x hx
        exact List.find?_eq_none.mp hf x ((mem_sortByPriority x _).mpr hx)
      rcases processDefaultStep_elim poll st1 st2 hstep with ⟨_, hst⟩ | ⟨d, hcond, _, hor⟩
      · rcases houtg with h1 | ⟨rc, hrc, hth, _⟩
        · have houteq : st2.outgoing = poll.default_response := by rw [hst]; exact h1
          exact hout2.trans (congrArg finalReply houteq)
        · exact absurd hth (hnone rc (by rw [hresp, hst, hcats1']; exact hrc))
      · rcases hor with ⟨hec, hst⟩ | ⟨hec, hst⟩
        · exfalso
          rw [hresp, hst] at hne
          simp at hne
        · rcases houtg with h1 | ⟨rc, hrc, hth, _⟩
          · have houteq : st2.outgoing = poll.default_response := by rw [hst]; exact h1
            exact hout2.trans (congrArg finalReply houteq)
          · refine absurd hth (hnone rc ?_)
            rw [hresp, hst]
            simp only [List.mem_append]
            left
            rw [hcats1']
            exact hrc

/-- C7, witness: categories A (priority 1, reply `"ra"`) and B (priority 2,
reply `"rb"`) both matched — the reply is `"ra"`. -/
theorem select_reply_priority_order_witness :
    pollAB.type = "t" ∧
    Poll.process_response cAll pollAB "hello" = Except.ok (respAB, some "ra") ∧
    respAB.has_errors = false ∧
    (some "ra" : Option String) = finalReply
      (match (sortByPriority respAB.categories).find?
          (fun rc => strTruthy rc.category.response) with
        | some rc => rc.category.response
        | none => pollAB.default_response) :=
  ⟨rfl, rfl, rfl, select_reply_priority_order cAll pollAB "hello" respAB (some "ra") rfl rfl rfl⟩

/-- C8: reprocessing keeps every override assignment exactly as it was and
rebuilds the rest: the result is the override assignments followed by
freshly created non-override assignments, none of which touches a category
that already has an override assignment (so an override is never deleted
and never duplicated). -/
theorem reprocess_preserves_overrides (compile : Compile) (poll : Poll)
    (resp0 resp' : Response)
    (hok : reprocessOne compile poll resp0 = Except.ok resp') :
    ∃ created : List ResponseCategory,
      resp'.categories = (resp0.categories.filter (fun rc => rc.is_override)) ++ created ∧
      (∀ rc ∈ created, rc.is_override = false) ∧
      (∀ rc ∈ created, ∀ ov ∈ resp0.categories, ov.is_override = true →
        ov.category.pk ≠ rc.category.pk) := by
  rcases reprocessOne_elim compile poll resp0 resp' hok with ⟨resp2, hcat, hstep⟩
  rcases catLoopR_ok compile poll.categories _ resp2 hcat with
    ⟨added, hcats, hmem, _, hdis, _, _⟩
  rcases reprocessDefaultStep_elim poll resp2 resp' hstep with ⟨_, heq⟩ |
    ⟨d, hcond, _, hcats', _, _, _⟩
  · refine ⟨added, ?_, fun rc hrc => (hmem rc hrc).1, ?_⟩
    · rw [heq, hcats]
    · intro rc hrc ov hov hovr hpk
      apply hdis rc hrc
      exact List.mem_map.mpr ⟨ov, List.mem_filter.mpr ⟨hov, by simp [hovr]⟩, hpk⟩
  · have h0 : resp2.categories = [] :=
      List.isEmpty_iff.mp ((Bool.and_eq_true _ _).mp hcond).1
    have hnil :
        (resp0.categories.filter (fun rc => rc.is_override)) = [] ∧ added = [] := by
      have hcats2 : ([] : List ResponseCategory) =
          (resp0.categories.filter (fun rc => rc.is_override)) ++ added := by
        rw [← h0, hcats]
      exact List.append_eq_nil.mp hcats2.symm
    refine ⟨[⟨d, false, none⟩], ?_, ?_, ?_⟩
    · rw [hcats', h0, hnil.1]
    · intro rc hrc
      rw [List.mem_singleton.mp hrc]
    · intro rc hrc ov hov hovr hpk
      have hmemov : ov ∈ resp0.categories.filter (fun rc => rc.is_override) :=
        List.mem_filter.mpr ⟨hov, by simp [hovr]⟩
      rw [hnil.1] at hmemov
      exact absurd hmemov (List.not_mem_nil ov)

/-- C8, witness: a response with an override to X (pk 7) and a non-override
to Y (pk 8), reprocessed against a poll whose rules match Y and Z. -/
theorem reprocess_preserves_overrides_witness :
    reprocessOne cAll pollW respW = Except.ok respW' ∧
    ∃ created : List ResponseCategory,
      respW'.categories = (respW.categories.filter (fun rc => rc.is_override)) ++ created ∧
      (∀ rc ∈ created, rc.is_override = false) ∧
      (∀ rc ∈ created, ∀ ov ∈ respW.categories, ov.is_override = true →
        ov.category.pk ≠ rc.category.pk) :=
  ⟨rfl, reprocess_preserves_overrides cAll pollW respW respW' rfl⟩

/-- After clearing, writing row `c` (update-or-insert) leaves `c` as the
only default category, provided every other row is non-default and pks are
unique. -/
lemma upsert_filter_default (c : Category) (l : List Category)
    (hdef : c.default = true)
    (hnd : (l.map (fun d => d.pk)).Nodup)
    (hother : ∀ d ∈ l, d.pk ≠ c.pk → d.default = false) :
    (if l.any (fun d => d.pk = c.pk) then l.map (fun d => if d.pk = c.pk then c else d)
     else l ++ [c]).filter (fun d => d.default) = [c] := by
  cases hmem : l.any (fun d => d.pk = c.pk) with
  | false =>
    simp only [hmem, Bool.false_eq_true, if_false]
    have hnil : l.filter (fun d => d.default) = [] := by
      rw [List.filter_eq_nil_iff]
      intro d hd
      have hne : d.pk ≠ c.pk := by
        have h2 := List.any_eq_false.mp hmem d hd
        simpa using h2
      simp [hother d hd hne]
    rw [List.filter_append, hnil, List.nil_append]
    simp [hdef]
  | true =>
    simp only [hmem, if_true]
    rw [List.filter_map]
    rcases List.any_eq_true.mp hmem with ⟨x0, hx0l, hx0p⟩
    have hx0pk : x0.pk = c.pk := by simpa using hx0p
    have hcong : l.filter ((fun d => d.default) ∘ (fun d => if d.pk = c.pk then c else d)) =
        l.filter (fun d => d.pk = c.pk) := by
      apply List.filter_congr
      intro d hd
      by_cases hdd : d.pk = c.pk
      · simp [Function.comp, hdd, hdef]
      · simp [Function.comp, hdd, hother d hd hdd]
    rw [hcong]
    have hsing := filter_pk_singleton (fun d : Category => d.pk) l hnd x0 hx0l
    simp only [] at hsing
    have hsing2 : List.filter (fun d => decide (d.pk = c.pk)) l = [x0] := by
      rw [show (fun d : Category => decide (d.pk = c.pk)) =
          (fun d : Category => decide (d.pk = x0.pk)) from by funext d; rw [hx0pk]]
      exact hsing
    rw [hsing2]
    simp [hx0pk]

/-- C9: saving a category with the default flag set leaves it as the unique
default of the poll — `Category.save` clears the flag on every other
category (given unique pks). -/
theorem category_save_single_default (c : Category) (cats : List Category)
    (hdef : c.default = true)
    (hnd : (cats.map (fun d => d.pk)).Nodup) :
    (Category.save c cats).filter (fun d => d.default) = [c] := by
  unfold Category.save
  by_cases hex : ((cats.filter (fun d => d.pk ≠ c.pk && d.default)).isEmpty = true)
  · have hcond : (c.default &&
        !((cats.filter (fun d => d.pk ≠ c.pk && d.default)).isEmpty)) = false := by
      rw [hex]; simp
    rw [hcond]
    simp only [Bool.false_eq_true, if_false]
    apply upsert_filter_default c cats hdef hnd
    intro d hd hne
    have hall := List.filter_eq_nil_iff.mp (List.isEmpty_iff.mp hex)
    have hnd2 := hall d hd
    cases hdd : d.default
    · rfl
    · exact absurd (by simp [hne, hdd]) hnd2
  · have hexf : ((cats.filter (fun d => d.pk ≠ c.pk && d.default)).isEmpty) = false :=
      Bool.eq_false_iff.mpr hex
    have hcond : (c.default &&
        !((cats.filter (fun d => d.pk ≠ c.pk && d.default)).isEmpty)) = true := by
      rw [hdef, hexf]; rfl
    rw [hcond]
    simp only [if_true]
    apply upsert_filter_default c
      (cats.map (fun d => if d.pk ≠ c.pk && d.default then { d with default := false } else d))
      hdef
    · have hpks : (cats.map (fun d =>
          if d.pk ≠ c.pk && d.default then { d with default := false } else d)).map
            (fun d => d.pk) = cats.map (fun d => d.pk) := by
        rw [List.map_map]
        apply List.map_congr_left
        intro d _
        simp only [Function.comp_apply]
        cases hdd : (decide (d.pk ≠ c.pk) && d.default) with
        | true => simp
        | false => simp
      rw [hpks]
      exact hnd
    · intro x hx hne
      rcases List.mem_map.mp hx with ⟨d, hd, hxd⟩
      subst hxd
      cases hdd : (decide (d.pk ≠ c.pk) && d.default) with
      | true => simp
      | false =>
        simp only [hdd, Bool.false_eq_true, if_false] at hne ⊢
        cases hdef2 : d.default
        · rfl
        · rw [hdef2] at hdd
          simp at hdd
          exact absurd hdd hne

/-- C9, witness: setting the default flag of category pk 2 when pk 1 was
the default leaves pk 2 as the unique default. -/
theorem category_save_single_default_witness :
    catC9.default = true ∧ (catsC9.map (fun d => d.pk)).Nodup ∧
    (Category.save catC9 catsC9).filter (fun d => d.default) = [catC9] :=
  ⟨rfl, by decide, category_save_single_default catC9 catsC9 rfl (by decide)⟩

/-- C10: `update_categories` makes the assigned category set exactly the
chosen collection — missing categories are created as override assignments
carrying the acting user, and every assignment (override or not) whose
category is not chosen is deleted. -/
theorem update_categories_sets_exactly (resp : Response) (cats : List Category)
    (user : Nat) :
    (∀ p : Nat, p ∈ (resp.update_categories cats user).categories.map
        (fun rc => rc.category.pk) ↔ p ∈ cats.map (fun c => c.pk)) ∧
    ∃ created : List ResponseCategory,
      (resp.update_categories cats user).categories =
        (resp.categories.filter (fun rc => cats.any (fun c => c.pk = rc.category.pk)))
          ++ created ∧
      (∀ rc ∈ created, rc.is_override = true ∧ rc.user = some user) ∧
      (∀ p : Nat, p ∈ created.map (fun rc => rc.category.pk) ↔
        (p ∈ cats.map (fun c => c.pk) ∧
          p ∉ resp.categories.map (fun rc => rc.category.pk))) := by
  rcases updateCategoriesAdd_elim user cats resp.categories with ⟨created, heq, hmem, hiff⟩
  have hcreatedP : created.filter
      (fun rc => cats.any (fun c => c.pk = rc.category.pk)) = created := by
    rw [List.filter_eq_self]
    intro rc hrc
    rcases ((hiff rc.category.pk).mp (List.mem_map_of_mem _ hrc)) with ⟨hc, _⟩
    rcases List.mem_map.mp hc with ⟨cc, hcc, hpk⟩
    exact List.any_eq_true.mpr ⟨cc, hcc, by simp [hpk]⟩
  have hresult : (resp.update_categories cats user).categories =
      (resp.categories.filter (fun rc => cats.any (fun c => c.pk = rc.category.pk)))
        ++ created := by
    simp only [Response.update_categories]
    rw [heq, List.filter_append, hcreatedP]
  constructor
  · intro p
    rw [hresult, List.map_append, List.mem_append]
    constructor
    · intro hp
      rcases hp with hp | hp
      · rcases List.mem_map.mp hp with ⟨rc, hrc, hpk⟩
        rcases List.mem_filter.mp hrc with ⟨_, hP⟩
        rcases List.any_eq_true.mp hP with ⟨cc, hcc, hpkc⟩
        refine List.mem_map.mpr ⟨cc, hcc, ?_⟩
        rw [← hpk]
        simpa using hpkc
      · exact ((hiff p).mp hp).1
    · intro hp
      by_cases hold : p ∈ resp.categories.map (fun rc => rc.category.pk)
      · left
        rcases List.mem_map.mp hold with ⟨rc, hrc, hpk⟩
        refine List.mem_map.mpr ⟨rc, List.mem_filter.mpr ⟨hrc, ?_⟩, hpk⟩
        rcases List.mem_map.mp hp with ⟨cc, hcc, hpkc⟩
        exact List.any_eq_true.mpr ⟨cc, hcc, by simp [hpkc, hpk]⟩
      · right
        exact (hiff p).mpr ⟨hp, hold⟩
  · exact ⟨created, hresult, hmem, hiff⟩

end RapidPolls
